import Mathlib

/-!
Shallow embedding of `src/tools/vectordb_bench/vectordb_bench.cpp`, the
ANN benchmark harness (dataset I/O, query-text construction, ingestion and
query loops, recall metric).

Modelling conventions:
* A dataset file is a list of 4-byte little-endian words, each word a `Nat`
  (the raw 32-bit pattern); the C code only ever moves whole 4-byte units
  (`sizeof(int) == sizeof(float) == 4`), so byte order inside a word never
  matters to the harness logic.
* Reading a word as a C `int` is `toInt32` (two's-complement reinterpretation).
* The C `assert(...)`/`abort()` failure paths are modelled by `Option`:
  `none` is an aborted run.
* Float formatting (`std::fixed << std::setprecision(6)`) is kept abstract as
  a parameter `fmt : Nat → String` applied to the 32-bit word of the float:
  the harness never inspects the rendered text, it only concatenates it.
* The query backend (`BustubInstance::ExecuteSql`) is an external collaborator;
  it is modelled by oracles (`exec : String → Bool` for inserts, a per-query
  result-id list `results : Nat → List Int` for selects).
-/

/-- Two's-complement reinterpretation of a 4-byte word as a C `int`. -/
def toInt32 (w : Nat) : Int :=
  if w < 2 ^ 31 then (w : Int) else (w : Int) - 2 ^ 32

/-- Overwrite the slice of `x` starting at `pos` with `src`
(the effect of `memmove(x + pos, ..., src.length * 4)` on a word buffer). -/
def writeRange (x : List Nat) (pos : Nat) (src : List Nat) : List Nat :=
  x.take pos ++ src ++ x.drop (pos + src.length)

/-- Loop `for (i = 0; i < n; i++) memmove(x + i*d, x + 1 + i*(d+1), d*4)` of
`FvecsRead`: compact the staged buffer by dropping each row's count prefix. -/
def shiftRows (d n : Nat) (x : List Nat) : List Nat :=
  (List.range n).foldl
    (fun acc i => writeRange acc (i * d) ((acc.drop (i * (d + 1) + 1)).take d)) x

/-- Embedding of `FvecsRead`: read the first word as the dimension `d`,
assert `0 < d < 1000000`, assert the byte size `4 * file.length` is a multiple
of `(d+1)*4`, set `n = size / ((d+1)*4)`, load the whole file and compact it
with `shiftRows`; the result rows are the first `n * d` words.  `none` models
a failed `assert` (the empty-file case never reaches a defined `d`). -/
def FvecsRead (file : List Nat) : Option (Nat × Nat × List Nat) :=
  match file with
  | [] => none
  | w :: _ =>
    if 0 < toInt32 w ∧ toInt32 w < 1000000 then
      let d := w
      let sz := 4 * file.length
      if sz % ((d + 1) * 4) = 0 then
        let n := sz / ((d + 1) * 4)
        some (d, n, (shiftRows d n file).take (n * d))
      else none
    else none

/-- Embedding of `IvecsRead`, which is
`reinterpret_cast<int *>(FvecsRead(fname, d_out, n_out))`: the same words,
each payload word reinterpreted as a 32-bit integer (the cast is sound here
because the model fixes both element widths at 4 bytes, the code's
`sizeof(int) == sizeof(float)` proviso). -/
def IvecsRead (file : List Nat) : Option (Nat × Nat × List Int) :=
  (FvecsRead file).map fun r => (r.1, r.2.1, r.2.2.map toInt32)

/-- Spec-side reader for comparison (GroundTruthMatrix, spec sections 3 and
4.1): on a well-formed file of `records` each of dimension `d`, the
ground-truth matrix has dimension `d`, count `records.length`, and row `i`
is the integer payload of record `i` (count prefixes excluded). -/
def readGroundTruthSpec (records : List (List Nat)) (d : Nat) :
    Nat × Nat × List Int :=
  (d, records.length, records.flatten.map toInt32)

/-- Element loop of `Vector2String`: `elem, elem, ..., elem` with `", "`
between consecutive elements (`if (i < n - 1) ss << ", ";`). -/
def vecElems (fmt : Nat → String) : List Nat → String
  | [] => ""
  | [x] => fmt x
  | x :: y :: xs => fmt x ++ ", " ++ vecElems fmt (y :: xs)

/-- Embedding of `Vector2String`: bracketed, comma-separated rendering of the
vector; each element is rendered by the abstract float formatter `fmt`. -/
def Vector2String (fmt : Nat → String) (p : List Nat) : String :=
  "[" ++ vecElems fmt p ++ "]"

/-- Constant `insert_sql` of `InsertIndexVectorData`. -/
def insert_sql : String := "INSERT INTO t1 VALUES (ARRAY "

/-- Row `i` of a row-major flat buffer with `d` words per row
(the pointer `xb + i * d2` read for `d2` elements). -/
def rowOf (d : Nat) (data : List Nat) (i : Nat) : List Nat :=
  (data.drop (i * d)).take d

/-- Insert statement submitted for row `i`:
`insert_sql + vector + " , " + std::to_string(i) + ");"`. -/
def mkInsertSql (fmt : Nat → String) (d : Nat) (data : List Nat) (i : Nat) :
    String :=
  insert_sql ++ Vector2String fmt (rowOf d data i) ++ " , " ++ toString i ++ ");"

/-- Observable trace of the ingestion loop: the statements submitted to the
backend in order, and the row indices whose insert failed (the
`std::cerr << "Insert data failed: index = " << i` log lines). -/
structure IngestTrace where
  submitted : List String
  failLog : List Nat
deriving DecidableEq

/-- Embedding of the insert loop of `InsertIndexVectorData`: for each row
`i = 0 .. n-1` build the insert statement, submit it to the backend oracle
`exec`, and on failure log the row index; the loop never stops early. -/
def InsertIndexVectorData (fmt : Nat → String) (exec : String → Bool)
    (d n : Nat) (data : List Nat) : IngestTrace :=
  (List.range n).foldl
    (fun acc i =>
      let sql := mkInsertSql fmt d data i
      { submitted := acc.submitted ++ [sql],
        failLog := if exec sql then acc.failLog else acc.failLog ++ [i] })
    ⟨[], []⟩

/-- Recall accumulator of class `Metric`: fields `n_1_`, `n_10_`, `n_100_`,
`n_`. -/
structure Metric where
  n1 : Nat
  n10 : Nat
  n100 : Nat
  n : Nat
deriving DecidableEq

/-- Initial state `Metric() = default`: all counters zero. -/
def Metric.init : Metric := ⟨0, 0, 0, 0⟩

/-- Rank of the first occurrence of `target` in the result list: the loop
`for (i = 0; i < res.size(); ++i) if (res[i] == target) { ...; break; }`. -/
def firstMatch (target : Int) : List Int → Option Nat
  | [] => none
  | x :: xs => if x = target then some 0 else (firstMatch target xs).map (· + 1)

/-- Embedding of `Metric::AddQueryResult`: increment `n_`, take
`target = gt[0]`, and at the first rank `i` with `res[i] == target` increment
`n_1_` when `i < 1`, `n_10_` when `i < 10`, `n_100_` when `i < 100`; no match
leaves the hit counters alone.  `gt.headI` is the `gt[0]` read; the claims
only exercise nonempty ground-truth rows. -/
def Metric.AddQueryResult (m : Metric) (res : List Int) (gt : List Int) :
    Metric :=
  match firstMatch gt.headI res with
  | none => { m with n := m.n + 1 }
  | some i =>
    { n1 := if i < 1 then m.n1 + 1 else m.n1
      n10 := if i < 10 then m.n10 + 1 else m.n10
      n100 := if i < 100 then m.n100 + 1 else m.n100
      n := m.n + 1 }

/-- Division as `Metric::Show` performs it, `counter / (float)n_`: the
quotient is exact (`ℚ`) when the divisor is nonzero; a zero divisor gives a
non-finite IEEE result (`0/0` is NaN), modelled `none`. -/
def fdiv (a b : Nat) : Option ℚ :=
  if b = 0 then none else some ((a : ℚ) / (b : ℚ))

/-- Embedding of `Metric::Show`: the three printed ratios
`R@1 = n_1_/n_`, `R@10 = n_10_/n_`, `R@100 = n_100_/n_`, computed with no
guard on `n_`. -/
def Metric.Show (m : Metric) : Option ℚ × Option ℚ × Option ℚ :=
  (fdiv m.n1 m.n, fdiv m.n10 m.n, fdiv m.n100 m.n)

/-- Query loop of `DoANNQuery`: for each query `i = 0 .. nq-1` the backend's
ranked id list `results i` is scored against the ground-truth pointer
`gt + 100 * i` (the code hardcodes the stride `100`). -/
def DoANNQuery (results : Nat → List Int) (nq : Nat) (gt : List Int) : Metric :=
  (List.range nq).foldl
    (fun m i => m.AddQueryResult (results i) (gt.drop (100 * i))) Metric.init

/-- Spec-side query loop for comparison: query `i` is scored against row `i`
of the ground-truth matrix of declared row width `k`, i.e. the `k` entries
starting at flat offset `i * k`. -/
def specRowsANNQuery (results : Nat → List Int) (nq k : Nat) (gt : List Int) :
    Metric :=
  (List.range nq).foldl
    (fun m i => m.AddQueryResult (results i) ((gt.drop (k * i)).take k))
    Metric.init

/-- Sequence of `AddQueryResult` calls from the initial state (the
RecallAccumulator lifecycle: created at start, mutated once per query). -/
def runMetric (calls : List (List Int × List Int)) : Metric :=
  calls.foldl (fun m c => m.AddQueryResult c.1 c.2) Metric.init

/-- Counter ordering invariant of the accumulator. -/
def Metric.inv (m : Metric) : Prop :=
  m.n1 ≤ m.n10 ∧ m.n10 ≤ m.n100 ∧ m.n100 ≤ m.n

/-- Concrete ground-truth file with declared row width 101 and two records:
record `i` holds the identifiers `101 * i .. 101 * i + 100`. -/
def cexGtFile : List Nat :=
  ((List.range 2).map (fun i => 101 :: (List.range 101).map (fun j => 101 * i + j))).flatten

theorem firstMatch_eq_none_iff (t : Int) (res : List Int) :
    firstMatch t res = none ↔ ∀ j : Nat, res[j]? ≠ some t := by
  induction res with
  | nil => simp [firstMatch]
  | cons x xs ih =>
    by_cases hx : x = t
    · simp only [firstMatch, if_pos hx]
      constructor
      · intro h; simp at h
      · intro h; exact absurd (by simp [hx]) (h 0)
    · simp only [firstMatch, if_neg hx, Option.map_eq_none', ih]
      constructor
      · intro h j
        cases j with
        | zero => simp [hx]
        | succ j => simpa using h j
      · intro h j
        simpa using h (j + 1)

theorem firstMatch_eq_some_iff (t : Int) (res : List Int) (i : Nat) :
    firstMatch t res = some i ↔
      (res[i]? = some t ∧ ∀ j : Nat, j < i → res[j]? ≠ some t) := by
  induction res generalizing i with
  | nil => simp [firstMatch]
  | cons x xs ih =>
    by_cases hx : x = t
    · simp only [firstMatch, if_pos hx]
      cases i with
      | zero => simp [hx]
      | succ i =>
        constructor
        · intro h; simp at h
        · rintro ⟨-, h⟩
          exact absurd (by simp [hx]) (h 0 (Nat.succ_pos i))
    · simp only [firstMatch, if_neg hx]
      cases i with
      | zero =>
        constructor
        · intro h
          rcases Option.map_eq_some'.1 h with ⟨i0, -, hi0⟩
          omega
        · rintro ⟨h0, -⟩
          simp only [List.getElem?_cons_zero, Option.some.injEq] at h0
          exact absurd h0 hx
      | succ i =>
        constructor
        · intro h
          rcases Option.map_eq_some'.1 h with ⟨i0, hfm, hi0⟩
          have hii : i0 = i := by omega
          rw [hii] at hfm
          rcases (ih i).1 hfm with ⟨h1, h2⟩
          refine ⟨by simpa using h1, ?_⟩
          intro j hj
          cases j with
          | zero => simp [hx]
          | succ j => simpa using h2 j (by omega)
        · rintro ⟨h1, h2⟩
          have hfm : firstMatch t xs = some i := by
            refine (ih i).2 ⟨by simpa using h1, ?_⟩
            intro j hj
            simpa using h2 (j + 1) (by omega)
          rw [hfm]
          rfl

/-- C1: `AddQueryResult` with a nonempty ground-truth row `target :: rest`
increments `total_queries` by exactly one on every call; when `target` does
not occur in the ranked results no hit counter changes; when its first
occurrence is at 0-based rank `i`, `hits_at_1` is incremented iff `i < 1`,
`hits_at_10` iff `i < 10`, `hits_at_100` iff `i < 100` (only the first
occurrence counts: the scan stops there). -/
theorem addQueryResult_record_C1 (m : Metric) (res : List Int) (target : Int)
    (rest : List Int) :
    (m.AddQueryResult res (target :: rest)).n = m.n + 1 ∧
    ((∀ j : Nat, res[j]? ≠ some target) →
      (m.AddQueryResult res (target :: rest)).n1 = m.n1 ∧
      (m.AddQueryResult res (target :: rest)).n10 = m.n10 ∧
      (m.AddQueryResult res (target :: rest)).n100 = m.n100) ∧
    (∀ i : Nat, res[i]? = some target → (∀ j : Nat, j < i → res[j]? ≠ some target) →
      (m.AddQueryResult res (target :: rest)).n1
          = m.n1 + (if i < 1 then 1 else 0) ∧
      (m.AddQueryResult res (target :: rest)).n10
          = m.n10 + (if i < 10 then 1 else 0) ∧
      (m.AddQueryResult res (target :: rest)).n100
          = m.n100 + (if i < 100 then 1 else 0)) := by
  have hhead : (target :: rest).headI = target := rfl
  unfold Metric.AddQueryResult
  rw [hhead]
  cases hfm : firstMatch target res with
  | none =>
    refine ⟨rfl, fun _ => ⟨rfl, rfl, rfl⟩, ?_⟩
    intro i h1 h2
    have := (firstMatch_eq_none_iff target res).1 hfm i
    exact absurd h1 this
  | some i0 =>
    refine ⟨rfl, ?_, ?_⟩
    · intro h
      have : firstMatch target res = none := (firstMatch_eq_none_iff target res).2 h
      rw [hfm] at this
      simp at this
    · intro i h1 h2
      have : firstMatch target res = some i :=
        (firstMatch_eq_some_iff target res i).2 ⟨h1, h2⟩
      rw [hfm] at this
      have hii : i0 = i := by simpa using this
      subst hii
      refine ⟨?_, ?_, ?_⟩ <;> dsimp only <;> split_ifs <;> omega

/-- Witness for C1: ground-truth row `[42, 7]`, results `[7, 42]`: the target
42 is first found at rank 1, so only `hits_at_10` and `hits_at_100`
increment, and `total_queries` becomes 1. -/
theorem addQueryResult_record_C1_witness :
    (Metric.AddQueryResult ⟨0, 0, 0, 0⟩ [7, 42] (42 :: [7])).n1 = 0 ∧
    (Metric.AddQueryResult ⟨0, 0, 0, 0⟩ [7, 42] (42 :: [7])).n10 = 1 ∧
    (Metric.AddQueryResult ⟨0, 0, 0, 0⟩ [7, 42] (42 :: [7])).n100 = 1 ∧
    (Metric.AddQueryResult ⟨0, 0, 0, 0⟩ [7, 42] (42 :: [7])).n = 1 := by
  have h := addQueryResult_record_C1 ⟨0, 0, 0, 0⟩ [7, 42] 42 [7]
  have h3 := h.2.2 1 (by decide) (by decide)
  refine ⟨by simpa using h3.1, by simpa using h3.2.1, by simpa using h3.2.2,
    by simpa using h.1⟩

theorem metric_inv_step (m : Metric) (res gt : List Int) (h : m.inv) :
    (m.AddQueryResult res gt).inv := by
  unfold Metric.inv at h ⊢
  unfold Metric.AddQueryResult
  cases hfm : firstMatch gt.headI res with
  | none => dsimp only; omega
  | some i => dsimp only; split_ifs <;> omega

theorem metric_inv_fold (calls : List (List Int × List Int)) :
    ∀ m : Metric, m.inv →
      (calls.foldl (fun m c => m.AddQueryResult c.1 c.2) m).inv := by
  induction calls with
  | nil => intro m h; simpa using h
  | cons c cs ih => intro m h; exact ih _ (metric_inv_step m c.1 c.2 h)

/-- C6: after any sequence of `AddQueryResult` calls starting from the
default-initialized accumulator, `n_1_ ≤ n_10_ ≤ n_100_ ≤ n_`. -/
theorem runMetric_inv_C6 (calls : List (List Int × List Int)) :
    (runMetric calls).n1 ≤ (runMetric calls).n10 ∧
    (runMetric calls).n10 ≤ (runMetric calls).n100 ∧
    (runMetric calls).n100 ≤ (runMetric calls).n :=
  metric_inv_fold calls Metric.init ⟨le_refl 0, le_refl 0, le_refl 0⟩

/-- C4 counterexample: with zero recorded queries, `Show` neither reports
all-zero recalls nor fails with an error: each printed ratio is the unguarded
`0 / (float)0`, i.e. NaN (modelled `none`). -/
theorem show_unguarded_cex_C4 :
    Metric.Show Metric.init = (none, none, none) ∧
    Metric.Show Metric.init ≠ (some 0, some 0, some 0) := by
  constructor
  · rfl
  · simp [Metric.Show, Metric.init, fdiv]

/-- C4 amended: `Show` performs the three divisions with no guard on `n_`;
when `total_queries = 0` every reported ratio is the non-finite `0/0`
(`none`), not an all-zero report and not an error value. -/
theorem show_zero_queries_C4 (m : Metric) (h : m.n = 0) :
    m.Show = (none, none, none) := by
  simp [Metric.Show, fdiv, h]

/-- Witness for C4 at the freshly initialized accumulator. -/
theorem show_zero_queries_C4_witness :
    Metric.Show Metric.init = (none, none, none) :=
  show_zero_queries_C4 Metric.init rfl

theorem headI_take (l : List Int) (k : Nat) (hk : 0 < k) :
    (l.take k).headI = l.headI := by
  cases l with
  | nil => simp
  | cons x xs =>
    cases k with
    | zero => omega
    | succ k => simp

theorem addQueryResult_congr_headI (m : Metric) (res : List Int)
    {g1 g2 : List Int} (h : g1.headI = g2.headI) :
    m.AddQueryResult res g1 = m.AddQueryResult res g2 := by
  unfold Metric.AddQueryResult
  rw [h]

theorem foldl_metric_ext (f g : Metric → Nat → Metric)
    (hfg : ∀ m i, f m i = g m i) :
    ∀ (L : List Nat) (m : Metric), L.foldl f m = L.foldl g m := by
  intro L
  induction L with
  | nil => intro m; rfl
  | cons x xs ih =>
    intro m
    simp only [List.foldl_cons, hfg, ih]

/-- C3 amended: the query loop scores query `i` against the ground-truth
entries starting at the hardcoded flat offset `100 * i`; this coincides with
consuming row `i` of the ground-truth matrix exactly for declared row width
`k = 100` (the loop only reads the row's first entry, so truncating the tail
to 100 entries is immaterial). -/
theorem doANNQuery_stride100_C3 (results : Nat → List Int) (nq : Nat)
    (gt : List Int) :
    DoANNQuery results nq gt = specRowsANNQuery results nq 100 gt := by
  unfold DoANNQuery specRowsANNQuery
  refine foldl_metric_ext _ _ (fun m i => ?_) (List.range nq) Metric.init
  exact addQueryResult_congr_headI m (results i)
    (headI_take (gt.drop (100 * i)) 100 (by norm_num)).symm

set_option maxRecDepth 8000 in
/-- C3 counterexample: a well-formed ground-truth file declaring row width
`k = 101` with 2 rows (row 0 holds 0..100, row 1 holds 101..201). For query 1
the claim's row is row 1 (first entry 101), but the loop reads the entry at
the hardcoded offset `100 * 1 = 100` (value 100); a backend answer `[100]`
is a rank-0 hit for the code yet a miss against row 1, so the computed
metric differs from the row-correct one. -/
theorem doANNQuery_hardcoded_cex_C3 :
    IvecsRead cexGtFile
        = some (101, 2, (List.range 202).map (fun j => (j : Int))) ∧
    DoANNQuery (fun _ => [100]) 2 ((List.range 202).map (fun j => (j : Int)))
      ≠ specRowsANNQuery (fun _ => [100]) 2 101
          ((List.range 202).map (fun j => (j : Int))) := by
  constructor
  · decide
  · decide

theorem flatten_length_uniform {α : Type} (w : Nat) :
    ∀ l : List (List α), (∀ r ∈ l, r.length = w) →
      l.flatten.length = l.length * w := by
  intro l
  induction l with
  | nil => simp
  | cons r rs ih =>
    intro h
    have hr : r.length = w := h r (List.mem_cons_self r rs)
    have hrs := ih (fun x hx => h x (List.mem_cons_of_mem r hx))
    simp only [List.flatten_cons, List.length_append, List.length_cons, hr, hrs]
    ring

theorem flatten_drop_uniform {α : Type} (w : Nat) :
    ∀ (m : Nat) (l : List (List α)), (∀ r ∈ l, r.length = w) →
      l.flatten.drop (m * w) = (l.drop m).flatten := by
  intro m
  induction m with
  | zero => intro l h; simp
  | succ m ih =>
    intro l h
    cases l with
    | nil => simp
    | cons r rs =>
      have hr : r.length = w := h r (List.mem_cons_self r rs)
      have hrec := ih rs (fun x hx => h x (List.mem_cons_of_mem r hx))
      rw [List.flatten_cons, List.drop_succ_cons]
      rw [show (m + 1) * w = r.length + m * w by rw [hr]; ring]
      rw [List.drop_append]
      exact hrec

theorem shiftRows_invariant (records : List (List Nat)) (d : Nat)
    (hlen : ∀ r ∈ records, r.length = d) :
    ∀ m, m ≤ records.length →
      (List.range m).foldl
        (fun acc i => writeRange acc (i * d) ((acc.drop (i * (d + 1) + 1)).take d))
        ((records.map (fun r => d :: r)).flatten)
      = (records.take m).flatten
        ++ ((records.map (fun r => d :: r)).flatten).drop (m * d) := by
  have hmap : ∀ r ∈ records.map (fun r => d :: r), r.length = d + 1 := by
    intro r hr
    rcases List.mem_map.1 hr with ⟨s, hs, rfl⟩
    simp [hlen s hs]
  intro m
  induction m with
  | zero => simp
  | succ m ih =>
    intro hm
    have hmlt : m < records.length := hm
    have hm' : m ≤ records.length := Nat.le_of_lt hmlt
    rw [List.range_succ, List.foldl_append, ih hm']
    simp only [List.foldl_cons, List.foldl_nil]
    have hPlen : (records.take m).flatten.length = m * d := by
      rw [flatten_length_uniform d (records.take m)
        (fun r hr => hlen r (List.take_subset m records hr))]
      rw [List.length_take, min_eq_left hm']
    have hXdrop : ((records.map (fun r => d :: r)).flatten).drop (m * (d + 1))
        = d :: (records[m] ++ ((records.drop (m + 1)).map (fun r => d :: r)).flatten) := by
      rw [flatten_drop_uniform (d + 1) m (records.map (fun r => d :: r)) hmap]
      rw [← List.map_drop (fun r => d :: r) records m]
      rw [List.drop_eq_getElem_cons hmlt]
      rw [List.map_cons, List.flatten_cons, List.cons_append]
    have hsrc : ((((records.take m).flatten
          ++ ((records.map (fun r => d :: r)).flatten).drop (m * d)).drop
            (m * (d + 1) + 1)).take d)
        = records[m] := by
      rw [show m * (d + 1) + 1 = (records.take m).flatten.length + (m + 1) by
        rw [hPlen]; ring]
      rw [List.drop_append, List.drop_drop]
      rw [show m * d + (m + 1) = m * (d + 1) + 1 by ring]
      rw [show m * (d + 1) + 1 = m * (d + 1) + 1 from rfl]
      have : ((records.map (fun r => d :: r)).flatten).drop (m * (d + 1) + 1)
          = records[m] ++ ((records.drop (m + 1)).map (fun r => d :: r)).flatten := by
        have h2 := congrArg (fun l => List.drop 1 l) hXdrop
        simpa [List.drop_drop] using h2
      rw [this]
      rw [← hlen records[m] (List.getElem_mem hmlt)]
      exact List.take_left _ _
    rw [hsrc]
    unfold writeRange
    rw [hlen records[m] (List.getElem_mem hmlt)]
    rw [show m * d = (records.take m).flatten.length from hPlen.symm]
    rw [List.take_left]
    rw [List.drop_append, List.drop_drop]
    have hrhs : (records.take (m + 1)).flatten
        = (records.take m).flatten ++ records[m] := by
      rw [List.take_succ, List.getElem?_eq_getElem hmlt]
      simp only [Option.toList_some, List.flatten_append, List.flatten_cons,
        List.flatten_nil, List.append_nil]
    rw [hrhs]
    rw [show (records.take m).flatten.length + d = (m + 1) * d by rw [hPlen]; ring]

theorem FvecsRead_wellformed (records : List (List Nat)) (d : Nat)
    (hd0 : 0 < d) (hd1 : d < 1000000) (hne : records ≠ [])
    (hlen : ∀ r ∈ records, r.length = d) :
    FvecsRead ((records.map (fun r => d :: r)).flatten)
      = some (d, records.length, records.flatten) := by
  have hmap : ∀ r ∈ records.map (fun r => d :: r), r.length = d + 1 := by
    intro r hr
    rcases List.mem_map.1 hr with ⟨s, hs, rfl⟩
    simp [hlen s hs]
  obtain ⟨r0, rs, rfl⟩ : ∃ r0 rs, records = r0 :: rs := by
    cases records with
    | nil => exact absurd rfl hne
    | cons a b => exact ⟨a, b, rfl⟩
  have hfile : (((r0 :: rs).map (fun r => d :: r)).flatten)
      = d :: (r0 ++ ((rs.map (fun r => d :: r)).flatten)) := by
    simp
  have hshift : shiftRows d (r0 :: rs).length (((r0 :: rs).map (fun r => d :: r)).flatten)
      = (r0 :: rs).flatten
        ++ (((r0 :: rs).map (fun r => d :: r)).flatten).drop ((r0 :: rs).length * d) := by
    unfold shiftRows
    have h := shiftRows_invariant (r0 :: rs) d hlen (r0 :: rs).length (le_refl _)
    rw [List.take_length] at h
    exact h
  have hlenfile : (((r0 :: rs).map (fun r => d :: r)).flatten).length
      = (r0 :: rs).length * (d + 1) := by
    rw [flatten_length_uniform (d + 1) ((r0 :: rs).map (fun r => d :: r)) hmap]
    rw [List.length_map]
  have hmod : 4 * ((r0 :: rs).length * (d + 1)) % ((d + 1) * 4) = 0 := by
    rw [show 4 * ((r0 :: rs).length * (d + 1)) = (r0 :: rs).length * ((d + 1) * 4) by
      ring]
    exact Nat.mul_mod_left _ _
  have hdiv : 4 * ((r0 :: rs).length * (d + 1)) / ((d + 1) * 4) = (r0 :: rs).length := by
    rw [show 4 * ((r0 :: rs).length * (d + 1)) = (r0 :: rs).length * ((d + 1) * 4) by
      ring]
    exact Nat.mul_div_cancel _ (by positivity)
  have hflen : (r0 :: rs).flatten.length = (r0 :: rs).length * d :=
    flatten_length_uniform d _ hlen
  rw [hfile]
  simp only [FvecsRead]
  have hcond : 0 < toInt32 d ∧ toInt32 d < 1000000 := by
    unfold toInt32
    rw [if_pos (by omega)]
    exact ⟨by exact_mod_cast hd0, by exact_mod_cast hd1⟩
  rw [if_pos hcond]
  rw [show (d :: (r0 ++ ((rs.map (fun r => d :: r)).flatten))).length
      = (r0 :: rs).length * (d + 1) by rw [← hfile]; exact hlenfile]
  rw [if_pos hmod]
  rw [hdiv]
  rw [← hfile, hshift]
  rw [show (r0 :: rs).length * d = (r0 :: rs).flatten.length from hflen.symm]
  rw [List.take_left]

theorem flatten_elementwise (records : List (List Nat)) (d : Nat)
    (hlen : ∀ r ∈ records, r.length = d) (i j : Nat)
    (hi : i < records.length) (hj : j < d) :
    records.flatten[i * d + j]? = (records.getD i [])[j]? := by
  rw [show records.flatten[i * d + j]? = (records.flatten.drop (i * d))[j]? by
    rw [List.getElem?_drop]]
  rw [flatten_drop_uniform d i records hlen]
  rw [List.drop_eq_getElem_cons hi]
  rw [List.flatten_cons]
  rw [List.getElem?_append]
  rw [if_pos (by rw [hlen records[i] (List.getElem_mem hi)]; exact hj)]
  rw [List.getD_eq_getElem records [] hi]

/-- C2: for a well-formed fvecs file holding `records.length` records of
dimension `d` (each record a count prefix `d` followed by its `d` payload
words), `FvecsRead` returns dimension `d`, count `records.length`, and the
row-major payload buffer with every count prefix excluded; element `[i][j]`
of the result is payload element `j` of record `i`. -/
theorem fvecsRead_wellformed_C2 (records : List (List Nat)) (d : Nat)
    (hd0 : 0 < d) (hd1 : d < 1000000) (hne : records ≠ [])
    (hlen : ∀ r ∈ records, r.length = d) :
    FvecsRead ((records.map (fun r => d :: r)).flatten)
      = some (d, records.length, records.flatten) ∧
    ∀ i j : Nat, i < records.length → j < d →
      records.flatten[i * d + j]? = (records.getD i [])[j]? :=
  ⟨FvecsRead_wellformed records d hd0 hd1 hne hlen,
   fun i j hi hj => flatten_elementwise records d hlen i j hi hj⟩

/-- Witness for C2: the file `[2, 10, 20, 2, 30, 40]` holds two records of
dimension 2 with payloads `[10, 20]` and `[30, 40]`. -/
theorem fvecsRead_wellformed_C2_witness :
    FvecsRead [2, 10, 20, 2, 30, 40] = some (2, 2, [10, 20, 30, 40]) := by
  have h := (fvecsRead_wellformed_C2 [[10, 20], [30, 40]] 2 (by decide) (by decide)
    (by decide) (by decide)).1
  simpa using h

/-- C10: on every well-formed file, `IvecsRead` returns the same dimension
and count as `FvecsRead`, and its buffer is the `FvecsRead` buffer with each
4-byte payload reinterpreted as a 32-bit two's-complement integer; this is
exactly the spec's ground-truth reader (the reinterpretation is sound in the
model because both element widths are the same 4 bytes, the code's
`sizeof(int) == sizeof(float)` proviso). -/
theorem ivecsRead_refines_C10 (records : List (List Nat)) (d : Nat)
    (hd0 : 0 < d) (hd1 : d < 1000000) (hne : records ≠ [])
    (hlen : ∀ r ∈ records, r.length = d) :
    FvecsRead ((records.map (fun r => d :: r)).flatten)
      = some (d, records.length, records.flatten) ∧
    IvecsRead ((records.map (fun r => d :: r)).flatten)
      = some (d, records.length, records.flatten.map toInt32) ∧
    IvecsRead ((records.map (fun r => d :: r)).flatten)
      = some (readGroundTruthSpec records d) := by
  have h := FvecsRead_wellformed records d hd0 hd1 hne hlen
  refine ⟨h, ?_, ?_⟩ <;> simp [IvecsRead, h, readGroundTruthSpec]

/-- Witness for C10: the file `[1, 5, 1, 4294967295]` holds two records of
dimension 1; the word `4294967295` reads back as the integer `-1`. -/
theorem ivecsRead_refines_C10_witness :
    IvecsRead [1, 5, 1, 4294967295] = some (1, 2, [5, -1]) := by
  have h := (ivecsRead_refines_C10 [[5], [4294967295]] 1 (by decide) (by decide)
    (by decide) (by decide)).2.1
  have e1 : toInt32 5 = 5 := by decide
  have e2 : toInt32 4294967295 = -1 := by decide
  simpa [e1, e2] using h

/-- C5 counterexample: the one-word file `[0]` has first 4-byte integer
`d = 0` and size `4`, an exact multiple of `(d + 1) * 4 = 4`, yet `FvecsRead`
aborts (on the dimension assertion) instead of proceeding with
`n = size / ((d + 1) * 4) = 1`. -/
theorem fvecsRead_dim_cex_C5 :
    4 * ([0] : List Nat).length % ((0 + 1) * 4) = 0 ∧ FvecsRead [0] = none := by
  decide

/-- C5 amended: for every file whose first 4-byte integer `w` passes the
dimension validation `0 < w < 1000000`, `FvecsRead` aborts exactly when the
file size is not a multiple of `(w + 1) * 4`, and otherwise proceeds with
record count `size / ((w + 1) * 4)`; a first word failing the validation
aborts earlier regardless of the file size. -/
theorem fvecsRead_size_check_C5 (w : Nat) (rest : List Nat)
    (hd0 : 0 < toInt32 w) (hd1 : toInt32 w < 1000000) :
    (4 * (w :: rest).length % ((w + 1) * 4) ≠ 0 → FvecsRead (w :: rest) = none) ∧
    (4 * (w :: rest).length % ((w + 1) * 4) = 0 →
      ∃ data, FvecsRead (w :: rest)
        = some (w, 4 * (w :: rest).length / ((w + 1) * 4), data)) := by
  constructor
  · intro h
    simp only [FvecsRead]
    rw [if_pos ⟨hd0, hd1⟩, if_neg h]
  · intro h
    simp only [FvecsRead]
    rw [if_pos ⟨hd0, hd1⟩, if_pos h]
    exact ⟨_, rfl⟩

/-- Witness for C5: `[2, 5, 6, 0]` (16 bytes, not a multiple of 12) aborts;
`[2, 5, 6, 2, 7, 8]` (24 bytes) proceeds with `n = 2`. -/
theorem fvecsRead_size_check_C5_witness :
    FvecsRead [2, 5, 6, 0] = none ∧
    ∃ data, FvecsRead [2, 5, 6, 2, 7, 8] = some (2, 2, data) := by
  constructor
  · exact (fvecsRead_size_check_C5 2 [5, 6, 0] (by decide) (by decide)).1 (by decide)
  · have h := (fvecsRead_size_check_C5 2 [5, 6, 2, 7, 8] (by decide) (by decide)).2
      (by decide)
    simpa using h

theorem ingest_foldl_spec (fmt : Nat → String) (exec : String → Bool)
    (d : Nat) (data : List Nat) :
    ∀ (L : List Nat) (acc : IngestTrace),
      L.foldl
        (fun acc i =>
          let sql := mkInsertSql fmt d data i
          { submitted := acc.submitted ++ [sql],
            failLog := if exec sql then acc.failLog else acc.failLog ++ [i] })
        acc
      = ⟨acc.submitted ++ L.map (mkInsertSql fmt d data),
         acc.failLog ++ L.filter (fun i => !exec (mkInsertSql fmt d data i))⟩ := by
  intro L
  induction L with
  | nil => intro acc; simp
  | cons x xs ih =>
    intro acc
    rw [List.foldl_cons, ih]
    simp only [List.map_cons, List.filter_cons]
    by_cases hx : exec (mkInsertSql fmt d data x) <;>
      simp [hx, List.append_assoc]

theorem insertIndexVectorData_eq (fmt : Nat → String) (exec : String → Bool)
    (d n : Nat) (data : List Nat) :
    InsertIndexVectorData fmt exec d n data
      = ⟨(List.range n).map (mkInsertSql fmt d data),
         (List.range n).filter (fun i => !exec (mkInsertSql fmt d data i))⟩ := by
  unfold InsertIndexVectorData
  rw [ingest_foldl_spec fmt exec d data (List.range n) ⟨[], []⟩]
  simp

theorem append_digit_ne (a b : String) :
    (a ++ "0") ++ ");" ≠ (b ++ "1") ++ ");" := by
  intro h
  have h2 := congrArg (fun s => s.data.reverse) h
  simp only [String.data_append, List.reverse_append] at h2
  have e0 : ("0" : String).data.reverse = ['0'] := rfl
  have e1 : ("1" : String).data.reverse = ['1'] := rfl
  have e2 : (");" : String).data.reverse = [';', ')'] := rfl
  rw [e0, e1, e2] at h2
  simp only [List.cons_append, List.nil_append, List.cons.injEq] at h2
  exact absurd h2.2.2.1 (by decide)

theorem mkInsertSql_zero_ne_one (fmt : Nat → String) (d : Nat)
    (data : List Nat) :
    mkInsertSql fmt d data 0 ≠ mkInsertSql fmt d data 1 := by
  unfold mkInsertSql
  rw [show (toString (0 : Nat)) = "0" from rfl]
  rw [show (toString (1 : Nat)) = "1" from rfl]
  exact append_digit_ne _ _

/-- C8: the ingestion loop submits exactly one insert statement per row, in
index order `0 .. n-1`; the statement for row `i` is the fixed insert prefix,
the rendered literal of row `i`, and the identifier `i`; in particular for 2
base vectors the two submitted statements carry identifiers 0 and 1 and are
distinct, whatever the element renderer produces. -/
theorem insert_statements_C8 (fmt : Nat → String) (exec : String → Bool)
    (d : Nat) (data : List Nat) :
    (∀ n, (InsertIndexVectorData fmt exec d n data).submitted
        = (List.range n).map (mkInsertSql fmt d data)) ∧
    (∀ i, mkInsertSql fmt d data i
        = insert_sql ++ Vector2String fmt (rowOf d data i) ++ " , "
            ++ toString i ++ ");") ∧
    (InsertIndexVectorData fmt exec d 2 data).submitted
      = [mkInsertSql fmt d data 0, mkInsertSql fmt d data 1] ∧
    mkInsertSql fmt d data 0 ≠ mkInsertSql fmt d data 1 := by
  refine ⟨?_, fun i => rfl, ?_, mkInsertSql_zero_ne_one fmt d data⟩
  · intro n
    rw [insertIndexVectorData_eq]
  · rw [insertIndexVectorData_eq]
    rfl

/-- C9: insert failures are non-fatal and isolated: whatever subset of
statements the backend rejects, the loop still submits the same statement
for every row `i = 0 .. n-1` (the submitted trace is the one an all-success
backend produces), and each failing row is logged with its row index. -/
theorem insert_failures_C9 (fmt : Nat → String) (exec : String → Bool)
    (d n : Nat) (data : List Nat) :
    (InsertIndexVectorData fmt exec d n data).submitted
      = (InsertIndexVectorData fmt (fun _ => true) d n data).submitted ∧
    (InsertIndexVectorData fmt exec d n data).submitted.length = n ∧
    (InsertIndexVectorData fmt exec d n data).failLog
      = (List.range n).filter (fun i => !exec (mkInsertSql fmt d data i)) := by
  rw [insertIndexVectorData_eq fmt exec, insertIndexVectorData_eq fmt (fun _ => true)]
  exact ⟨rfl, by simp, rfl⟩
